import Mathlib

set_option maxRecDepth 100000

/-!
Shallow embedding of `src/process_restart.py`: the binary material-record
codec (`Material.read` / `Material.to_binary`), the snapshot assembler
(`Restart_File.read_restart`), the restart store operations
(`extract_snapshot`, `write_binary`, the dictionary merge used by the
script), the constructor argument check (`Restart_File.__init__`), and the
nuclide identifier translator (`translate`).

Modelling conventions, recorded once here:

* A byte stream is a `List Nat` of byte values; `file.read(k)` over an open
  binary file is `take`/`drop` on the remaining stream.
* All fixed-width fields are 8 bytes wide.  `struct.pack`/`unpack` with the
  native formats `"q"` (signed 64-bit) and `"d"` (IEEE-754 float64) are
  modelled little-endian, the byte order of the platform the script runs
  on.  A float64 value is represented by its 64-bit pattern (`F64 := Nat`,
  value `< 2^64`); the codec moves the 8 bytes verbatim, and pattern
  equality models Python float equality (the two differ only on NaN
  payloads and `0.0 = -0.0`, which no claim exercises).
* A material name is a list of characters (the Python `str`; a Lean `Char`
  is a Unicode scalar value, exactly a Python 1-character string, since
  both exclude surrogates).  `str.encode` and `bytes.decode('UTF-8')` are
  modelled by explicit `utf8Encode` / `utf8Decode` functions; the decoder
  is strict and rejects malformed input (stray continuation bytes,
  truncated sequences, overlong forms, surrogates, out-of-range code
  points) exactly as the source's decoder raises `UnicodeDecodeError`.
* Python `dict` is an insertion-ordered association list with unique keys;
  `d[k] = v` is `assocInsert` (overwrite in place, else append), lookup is
  first-match `assocFind`.
* Python exceptions (struct.error, KeyError, UnboundLocalError, ...) make
  the modelled operation return `none` / an error constructor.
-/

namespace ProcessRestart

/-- Little-endian byte list (length `k`) of the low `8*k` bits of `n`. -/
def toBytesLE : Nat → Nat → List Nat
  | 0, _ => []
  | k + 1, n => n % 256 :: toBytesLE k (n / 256)

/-- Value of a little-endian byte list. -/
def fromBytesLE : List Nat → Nat
  | [] => 0
  | b :: bs => b + 256 * fromBytesLE bs

/-- IEEE-754 float64 value, represented by its 64-bit pattern. -/
abbrev F64 := Nat

/-- Predicate for a value representable by `struct.pack("q", _)`:
`struct.pack` raises `struct.error` outside the signed 64-bit range. -/
def inInt64 (z : Int) : Bool := decide (-(2 ^ 63) ≤ z) && decide (z < 2 ^ 63)

/-- Bytes of `struct.pack("q", z)`: two's complement, little-endian. -/
def int64Bytes (z : Int) : List Nat := toBytesLE 8 (z % (2 ^ 64)).toNat

/-- Value of `struct.unpack("q", bs)` on 8 bytes: two's complement decode. -/
def bytesToInt64 (bs : List Nat) : Int :=
  let u := fromBytesLE bs
  if u < 2 ^ 63 then (u : Int) else (u : Int) - 2 ^ 64

/-- Read one 8-byte field (`file.read(8)` + `struct.unpack("d", _)`);
`none` when fewer than 8 bytes remain (struct.error on truncated input). -/
def readWord (s : List Nat) : Option (F64 × List Nat) :=
  if 8 ≤ s.length then some (fromBytesLE (s.take 8), s.drop 8) else none

/-- Read one 8-byte signed field (`file.read(8)` + `struct.unpack("q", _)`);
`none` when fewer than 8 bytes remain. -/
def readInt64 (s : List Nat) : Option (Int × List Nat) :=
  if 8 ≤ s.length then some (bytesToInt64 (s.take 8), s.drop 8) else none

/-- Insertion-ordered dictionary assignment `d[k] = v`: overwrite in place
when the key is present, otherwise append. -/
def assocInsert {α β : Type} [DecidableEq α] (l : List (α × β)) (k : α) (v : β) :
    List (α × β) :=
  if l.any (fun p => decide (p.1 = k)) then
    l.map (fun p => if p.1 = k then (k, v) else p)
  else l ++ [(k, v)]

/-- Dictionary lookup `d[k]`, first match; `none` models `KeyError`. -/
def assocFind {α β : Type} [DecidableEq α] (l : List (α × β)) (k : α) : Option β :=
  (l.find? (fun p => decide (p.1 = k))).map (fun p => p.2)

/-- UTF-8 encoding of one character (`str.encode('UTF-8')` per code
point): 1 to 4 bytes depending on the code point. -/
def utf8EncodeChar (c : Char) : List Nat :=
  let n := c.toNat
  if n < 0x80 then [n]
  else if n < 0x800 then [0xC0 + n / 64, 0x80 + n % 64]
  else if n < 0x10000 then
    [0xE0 + n / 4096, 0x80 + (n / 64) % 64, 0x80 + n % 64]
  else
    [0xF0 + n / 262144, 0x80 + (n / 4096) % 64, 0x80 + (n / 64) % 64,
     0x80 + n % 64]

/-- UTF-8 encoding of a string (`str.encode('UTF-8')`). -/
def utf8Encode (s : List Char) : List Nat := (s.map utf8EncodeChar).flatten

/-- One step per byte of strict UTF-8 decoding.  The state is the number
of continuation bytes still expected, the partial code point, and the
smallest code point the current sequence length may produce (the overlong
check); decoded characters accumulate in reverse.  Structural recursion on
the byte list keeps the function kernel-computable. -/
def utf8DecodeLoop : List Nat → Nat → Nat → Nat → List Char → Option (List Char)
  | [], 0, _, _, acc => some acc.reverse
  | [], _ + 1, _, _, _ => none
  | b :: bs, 0, _, _, acc =>
    if b < 0x80 then utf8DecodeLoop bs 0 0 0 (Char.ofNat b :: acc)
    else if b < 0xC0 then none
    else if b < 0xE0 then utf8DecodeLoop bs 1 (b - 0xC0) 0x80 acc
    else if b < 0xF0 then utf8DecodeLoop bs 2 (b - 0xE0) 0x800 acc
    else if b < 0xF8 then utf8DecodeLoop bs 3 (b - 0xF0) 0x10000 acc
    else none
  | b :: bs, 1, cp, lo, acc =>
    if 0x80 ≤ b ∧ b < 0xC0 then
      let c := cp * 64 + (b - 0x80)
      if c < lo ∨ (0xD800 ≤ c ∧ c < 0xE000) ∨ 0x110000 ≤ c then none
      else utf8DecodeLoop bs 0 0 0 (Char.ofNat c :: acc)
    else none
  | b :: bs, k + 2, cp, lo, acc =>
    if 0x80 ≤ b ∧ b < 0xC0 then
      utf8DecodeLoop bs (k + 1) (cp * 64 + (b - 0x80)) lo acc
    else none

/-- Strict UTF-8 decoding (`bytes.decode('UTF-8')`): `none` models the
`UnicodeDecodeError` raised on a stray continuation byte, a truncated or
over-length sequence, an overlong form, a surrogate, or an out-of-range
code point — the whole decode fails, so checking a malformed sequence at
its last byte rather than at the first offending byte is observably the
same as the source's decoder. -/
def utf8Decode (bs : List Nat) : Option (List Char) := utf8DecodeLoop bs 0 0 0 []

/-- One material composition record (class `Material`), with the fields the
binary block stores.  `name` is the Python `str` as a character list.
`nuclides` is the insertion-ordered dictionary from nuclide ZAI identifier
to atomic density (`self.nuclides[str(ZAI)]['adens']`; `str` is a
bijection on integers, so keys are kept as `Int`). -/
structure Material where
  name : List Char
  bu_global : F64
  bu_days : F64
  nnuc : Int
  adens : F64
  mdens : F64
  bu : F64
  nuclides : List (Int × F64)
deriving DecidableEq, Repr

/-- Representability check for `Material.to_binary`: every `struct.pack`
call in it succeeds exactly when the integer fields fit in a signed 64-bit
word; the `< 2^64` conditions say the float fields are genuine 64-bit
patterns (automatic for every Python float). -/
def Material.packable (m : Material) : Bool :=
  decide (m.name.length < 2 ^ 63) && inInt64 m.nnuc &&
    decide (m.bu_global < 2 ^ 64) && decide (m.bu_days < 2 ^ 64) &&
    decide (m.adens < 2 ^ 64) && decide (m.mdens < 2 ^ 64) &&
    decide (m.bu < 2 ^ 64) &&
    m.nuclides.all (fun p => inInt64 p.1 && decide (p.2 < 2 ^ 64))

/-- Bytes of `struct.pack('{n}s'.format(len(name)), str.encode(name))`:
the count `n` is `len(self.name)`, the CHARACTER count, while the packed
argument is the UTF-8 byte encoding; `pack` truncates the bytes to `n`
(or zero-pads, which cannot occur since UTF-8 emits at least one byte per
character).  For a non-ASCII name the encoding is longer than `n` and is
silently truncated. -/
def nameField (name : List Char) : List Nat :=
  (utf8Encode name).take name.length ++
    List.replicate (name.length - (utf8Encode name).length) 0

/-- Bytes of the `nnuc` (identifier, density) pairs written at the end of a
binary block, in the dictionary's iteration order. -/
def nuclideBytes (l : List (Int × F64)) : List Nat :=
  (l.map (fun p => int64Bytes p.1 ++ toBytesLE 8 p.2)).flatten

/-- Encoder `Material.to_binary`: name length, name bytes, `bu_global`,
`bu_days`, `nnuc`, `adens`, `mdens`, `bu`, then one (identifier, density)
pair per entry of `nuclides`.  `none` when a `struct.pack` call raises. -/
def Material.to_binary (m : Material) : Option (List Nat) :=
  if m.packable then
    some (int64Bytes ((m.name.length : Int)) ++ nameField m.name ++
      toBytesLE 8 m.bu_global ++ toBytesLE 8 m.bu_days ++
      int64Bytes m.nnuc ++ toBytesLE 8 m.adens ++ toBytesLE 8 m.mdens ++
      toBytesLE 8 m.bu ++ nuclideBytes m.nuclides)
  else none

/-- Result of `Material.read`: `eof` is the `return False` path (first
`file.read(8)` produced no bytes), `corrupt` is any exception raised while
reading the record (truncated field, negative name length), and `ok m rest`
is `return True` with the populated material and the unread stream. -/
inductive ReadResult
  | eof : ReadResult
  | corrupt : ReadResult
  | ok : Material → List Nat → ReadResult
deriving DecidableEq, Repr

/-- Nuclide-reading loop of `Material.read`: `nnuc` iterations, each
unpacking a 16-byte (identifier, density) pair into the dictionary, a
duplicate identifier overwriting the earlier entry. -/
def readNucs : Nat → List Nat → List (Int × F64) →
    Option (List (Int × F64) × List Nat)
  | 0, s, acc => some (acc, s)
  | k + 1, s, acc =>
    match readInt64 s with
    | none => none
    | some (zai, s1) =>
      match readWord s1 with
      | none => none
      | some (ad, s2) => readNucs k s2 (assocInsert acc zai ad)

/-- Decoder `Material.read`: one binary block from the head of the stream.
The name bytes must decode as UTF-8, a failure raising
`UnicodeDecodeError` (`corrupt`).  The nuclide count used for the loop is
`nnuc.toNat`, matching `range(self.nnuc)` (empty for a non-positive
count). -/
def Material.read (s : List Nat) : ReadResult :=
  if s = [] then .eof
  else
    match readInt64 s with
    | none => .corrupt
    | some (n, s1) =>
      if n < 0 then .corrupt
      else if s1.length < n.toNat then .corrupt
      else
        let s2 := s1.drop n.toNat
        match utf8Decode (s1.take n.toNat) with
        | none => .corrupt
        | some name =>
        match readWord s2 with
        | none => .corrupt
        | some (bu_global, s3) =>
          match readWord s3 with
          | none => .corrupt
          | some (bu_days, s4) =>
            match readInt64 s4 with
            | none => .corrupt
            | some (nnuc, s5) =>
              match readWord s5 with
              | none => .corrupt
              | some (adens, s6) =>
                match readWord s6 with
                | none => .corrupt
                | some (mdens, s7) =>
                  match readWord s7 with
                  | none => .corrupt
                  | some (bu, s8) =>
                    match readNucs nnuc.toNat s8 [] with
                    | none => .corrupt
                    | some (nucs, s9) =>
                      .ok ⟨name, bu_global, bu_days, nnuc, adens, mdens, bu, nucs⟩ s9

/-- Material produced by decoding the head record of a stream, when one is
successfully decoded. -/
def decodeMaterial (s : List Nat) : Option Material :=
  match Material.read s with
  | .ok m _ => some m
  | _ => none

/-- Snapshot: insertion-ordered dictionary from material name to material. -/
abbrev Snapshot := List (List Char × Material)

/-- Restart store state built by `read_restart`: `snapshots` is
`self.snapshots`, `burnups` is `self._burnups`, `times` is `self._times`,
each an insertion-ordered dictionary keyed by the snapshot index. -/
structure RestartStore where
  snapshots : List (Int × Snapshot)
  burnups : List (Int × F64)
  times : List (Int × F64)
deriving DecidableEq, Repr

/-- Burnup of the most recently recorded snapshot:
`self._burnups[list(self._burnups.keys())[-1]]` (last inserted key of a
dictionary with unique keys, hence the last entry's value).  The default is
never consulted: the caller checks `len(self._burnups) == 0` first. -/
def lastBurnup (store : RestartStore) : F64 :=
  ((store.burnups.getLast?).map (fun p => p.2)).getD 0

/-- Store a decoded material into the snapshot with the given index:
`self.snapshots[current_step][mat.name] = mat`.  The key is always present
when `read_restart` calls this. -/
def storeMaterial (store : RestartStore) (cs : Int) (m : Material) : RestartStore :=
  { store with
    snapshots := store.snapshots.map
      (fun p => if p.1 = cs then (p.1, assocInsert p.2 m.name m) else p) }

/-- Body of the `read_restart` loop for one decoded material: open a new
snapshot when none exists yet or the record's `bu_global` differs from the
most recently recorded one, then store the material under its name.
Returns the updated store and `current_step`. -/
def processRecord (store : RestartStore) (cs : Int) (m : Material) :
    RestartStore × Int :=
  if store.burnups = [] ∨ m.bu_global ≠ lastBurnup store then
    let cs' := cs + 1
    let store' : RestartStore :=
      ⟨store.snapshots ++ [(cs', [])],
       store.burnups ++ [(cs', m.bu_global)],
       store.times ++ [(cs', m.bu_days)]⟩
    (storeMaterial store' cs' m, cs')
  else (storeMaterial store cs m, cs)

/-- Decode loop of `read_restart`: repeated `Material.read` until the
end-of-file signal; a raised exception aborts the whole read (`none`).
The loop is structurally recursive on a fuel argument so that it computes
by kernel reduction; by `read_ok_length` every successful record consumes
at least one byte, so with fuel exceeding the stream length the fuel-0 arm
is unreachable (`readLoop_fuel_irrel` makes this precise), and the
function agrees with the source's unbounded `while True` loop. -/
def readLoop : Nat → List Nat → RestartStore → Int → Option RestartStore
  | 0, _, _, _ => none
  | fuel + 1, s, store, cs =>
    match Material.read s with
    | .eof => some store
    | .corrupt => none
    | .ok m rest =>
      let pr := processRecord store cs m
      readLoop fuel rest pr.1 pr.2

/-- Assembler `Restart_File.read_restart`: starts from empty dictionaries
and `current_step = -1` and consumes the whole stream. -/
def read_restart (s : List Nat) : Option RestartStore :=
  readLoop (s.length + 1) s ⟨[], [], []⟩ (-1)

/-- Query `Restart_File.extract_snapshot`: the sentinel index `-1` is
replaced by the last inserted snapshot key; `none` models the
`IndexError`/`KeyError` raised when the store is empty or the index is
absent. -/
def extract_snapshot (store : RestartStore) (snapshot_id : Int) : Option Snapshot :=
  let resolved : Option Int :=
    if snapshot_id = -1 then (store.snapshots.map (fun p => p.1)).getLast?
    else some snapshot_id
  match resolved with
  | none => none
  | some k => assocFind store.snapshots k

/-- Loop of `Restart_File.write_binary` over the selected snapshot indices.
The `names?` argument is the `material_names` parameter, which the source
mutates: when it arrives as `None` it is assigned the key list of the
snapshot being processed and keeps that value for all later snapshots. -/
def writeLoop (snapshots : List (Int × Snapshot)) (ids : List Int)
    (names? : Option (List (List Char))) (acc : List Nat) : Option (List Nat) :=
  match ids with
  | [] => some acc
  | j :: rest =>
    match assocFind snapshots j with
    | none => none
    | some s =>
      let names : List (List Char) := match names? with
        | none => s.map (fun p => p.1)
        | some ns => ns
      match names.mapM (fun nm => assocFind s nm) with
      | none => none
      | some mats =>
        match mats.mapM Material.to_binary with
        | none => none
        | some blocks => writeLoop snapshots rest (some names) (acc ++ blocks.flatten)

/-- Encoder `Restart_File.write_binary`: writes the selected snapshots (all
of them when `snapshot_ids` is `None`) with the selected material names;
returns the bytes written to the file, `none` on a raised exception. -/
def write_binary (snapshots : List (Int × Snapshot))
    (snapshot_ids : Option (List Int)) (material_names : Option (List (List Char))) :
    Option (List Nat) :=
  let ids := match snapshot_ids with
    | none => snapshots.map (fun p => p.1)
    | some l => l
  writeLoop snapshots ids material_names []

/-- Dictionary merge `{**a, **b}` (script step 3, line 471): start from
`a`'s entries and insert `b`'s in order, the later-supplied source
overwriting on a shared key. -/
def mergeMaterials (a b : Snapshot) : Snapshot :=
  b.foldl (fun acc p => assocInsert acc p.1 p.2) a

/-- Object state produced by a successful `Restart_File.__init__`:
the `path_to_file` attribute (absent unless initialized from a path) and
the initial `snapshots` dictionary. -/
structure InitResult where
  path_to_file : Option String
  snapshots : List (Int × Snapshot)
deriving DecidableEq

/-- Constructor `Restart_File.__init__`: counts the non-`None` arguments,
raises (`none`) unless exactly one was supplied, then initializes from the
supplied one (path: empty store bound to the path; snapshots: the given
dictionary; materials: a single snapshot `0`). -/
def Restart_File.init (path_to_file : Option String)
    (snapshots : Option (List (Int × Snapshot))) (materials : Option Snapshot) :
    Option InitResult :=
  if [path_to_file.isSome, snapshots.isSome, materials.isSome].count true ≠ 1 then
    none
  else
    match path_to_file, snapshots, materials with
    | some p, _, _ => some ⟨some p, []⟩
    | none, some sn, _ => some ⟨none, sn⟩
    | none, none, some mats => some ⟨none, [(0, mats)]⟩
    | none, none, none => none

/-- Decimal digit character, `'0'` through `'9'`. -/
def digitChar (d : Nat) : Char := Char.ofNat (48 + d)

/-- Digit characters of `n`, least significant first; the fuel argument
makes the recursion structural so that the kernel can evaluate it, and
`natCharsAux_eq` identifies it with the base-10 digit list. -/
def natCharsAux : Nat → Nat → List Char
  | 0, _ => []
  | fuel + 1, n =>
    if n = 0 then [] else digitChar (n % 10) :: natCharsAux fuel (n / 10)

/-- Characters of `str(n)` for a natural number (most significant first). -/
def natChars (n : Nat) : List Char :=
  if n = 0 then ['0'] else (natCharsAux n n).reverse

/-- Python `str(n)` for a natural number. -/
def natStr (n : Nat) : String := ⟨natChars n⟩

/-- Python `int(s)` on a string of decimal digits. -/
def strVal (l : List Char) : Nat := l.foldl (fun a c => 10 * a + (c.toNat - 48)) 0

/-- Failure modes of `translate`: `unboundLocal` is the
`UnboundLocalError` raised when neither digit branch assigned `ZA`,
`unknownElement` is a failed table lookup (`KeyError`/`ValueError`), and
`indexError` is `name[-1]` on an empty string. -/
inductive TransErr
  | unboundLocal
  | unknownElement
  | indexError
deriving DecidableEq, Repr

/-- Equality of translation results is decidable. -/
instance {e a : Type} [DecidableEq e] [DecidableEq a] :
    DecidableEq (Except e a) := fun x y =>
  match x, y with
  | .error e1, .error e2 =>
    if h : e1 = e2 then isTrue (by rw [h])
    else isFalse (by intro hc; cases hc; exact h rfl)
  | .error _, .ok _ => isFalse (by intro hc; cases hc)
  | .ok _, .error _ => isFalse (by intro hc; cases hc)
  | .ok v1, .ok v2 =>
    if h : v1 = v2 then isTrue (by rw [h])
    else isFalse (by intro hc; cases hc; exact h rfl)

/-- The `elements` table of `translate`, in insertion order. -/
def elements : List (Nat × String) :=
  [(1, "H"), (2, "He"), (3, "Li"), (4, "Be"), (5, "B"), (6, "C"), (7, "N"),
   (8, "O"), (9, "F"), (10, "Ne"), (11, "Na"), (12, "Mg"), (13, "Al"),
   (14, "Si"), (15, "P"), (16, "S"), (17, "Cl"), (18, "Ar"), (19, "K"),
   (20, "Ca"), (21, "Sc"), (22, "Ti"), (23, "V"), (24, "Cr"), (25, "Mn"),
   (26, "Fe"), (27, "Co"), (28, "Ni"), (29, "Cu"), (30, "Zn"), (31, "Ga"),
   (32, "Ge"), (33, "As"), (34, "Se"), (35, "Br"), (36, "Kr"), (37, "Rb"),
   (38, "Sr"), (39, "Y"), (40, "Zr"), (41, "Nb"), (42, "Mo"), (43, "Tc"),
   (44, "Ru"), (45, "Rh"), (46, "Pd"), (47, "Ag"), (48, "Cd"), (49, "In"),
   (50, "Sn"), (51, "Sb"), (52, "Te"), (53, "I"), (54, "Xe"), (55, "Cs"),
   (56, "Ba"), (57, "La"), (58, "Ce"), (59, "Pr"), (60, "Nd"), (61, "Pm"),
   (62, "Sm"), (63, "Eu"), (64, "Gd"), (65, "Tb"), (66, "Dy"), (67, "Ho"),
   (68, "Er"), (69, "Tm"), (70, "Yb"), (71, "Lu"), (72, "Hf"), (73, "Ta"),
   (74, "W"), (75, "Re"), (76, "Os"), (77, "Ir"), (78, "Pt"), (79, "Au"),
   (80, "Hg"), (81, "Tl"), (82, "Pb"), (83, "Bi"), (84, "Po"), (85, "At"),
   (86, "Rn"), (87, "Fr"), (88, "Ra"), (89, "Ac"), (90, "Th"), (91, "Pa"),
   (92, "U"), (93, "Np"), (94, "Pu"), (95, "Am"), (96, "Cm"), (97, "Bk"),
   (98, "Cf"), (99, "Es"), (100, "Fm"), (101, "Md"), (102, "No"),
   (103, "Lr"), (104, "Rf"), (105, "Db"), (106, "Sg"), (107, "Bh"),
   (108, "Hs"), (109, "Mt"), (110, "Ds"), (111, "Rg"), (112, "Uub")]

/-- Symbol lookup `elements[Z]`; `none` models the `KeyError`. -/
def lookupZ (Z : Nat) : Option String :=
  (elements.find? (fun p => decide (p.1 = Z))).map (fun p => p.2)

/-- Reverse lookup
`list(elements.keys())[list(elements.values()).index(element)]`, first
match; `none` models the `ValueError` of a failed `index`. -/
def lookupSym (sym : String) : Option Nat :=
  (elements.find? (fun p => decide (p.2 = sym))).map (fun p => p.1)

/-- Numeric branch of `translate` (ZAI code to name).  The branch keys on
the last decimal digit of the input's digit string, which for a natural
number is `code % 10`; for a last digit other than 0 or 1 no branch assigns
`ZA`, so the later use raises `UnboundLocalError`.  The source divides in
float arithmetic (`int(name)/10`, `int(ZA/1000)`); the results are
integers, exactly representable for every code a restart file can hold, so
the model uses exact natural division. -/
def toName (code : Nat) : Except TransErr String :=
  if code % 10 = 0 ∨ code % 10 = 1 then
    let I := code % 10
    let ZA := (code - I) / 10
    let Z := ZA / 1000
    let A := ZA % 1000
    match lookupZ Z with
    | none => Except.error TransErr.unknownElement
    | some sym =>
      Except.ok (sym ++ (if A = 0 then "nat" else natStr A) ++
        (if I = 1 then "m" else ""))
  else Except.error TransErr.unboundLocal

/-- Name branch of `translate` (name to ZAI digit string).  The trailing
`while name[i:].isdigit(): i -= 1` scan isolates the longest all-digit
suffix, modelled with `takeWhile`/`dropWhile` on the reversed characters
(the source loop does not terminate when the whole remaining name is
digits, a case no supported name reaches; the model totalizes it to an
empty element prefix, which then fails the table lookup). -/
def toCode (name : String) : Except TransErr String :=
  match name.data.getLast? with
  | none => Except.error TransErr.indexError
  | some c =>
    let Istr : String := if c = 'm' then "1" else "0"
    let body : List Char := if c = 'm' then name.data.dropLast else name.data
    let Astr : List Char := (body.reverse.takeWhile (fun ch => ch.isDigit)).reverse
    let elem : List Char := (body.reverse.dropWhile (fun ch => ch.isDigit)).reverse
    match lookupSym ⟨elem⟩ with
    | none => Except.error TransErr.unknownElement
    | some Z => Except.ok (natStr Z ++ ⟨Astr⟩ ++ Istr)

/-- The `translate` dispatcher: an all-digit argument (`str(name).isdigit()`)
is a ZAI code, anything else a nuclide name. -/
def translate (name : String) : Except TransErr String :=
  if name.data ≠ [] ∧ name.data.all (fun ch => ch.isDigit) then
    toName (strVal name.data)
  else toCode name

/-! Concrete inputs used by the claim theorems, witnesses and
counterexamples.  Material names are character lists: `['a']` is `"a"`,
`['m', '1']` is `"m1"`, and so on.  `4609434218613702656` is
`0x3FF8000000000000`, the bit pattern of the float `1.5`; `0` is the
pattern of `0.0`. -/

/-- A material with nnuc inconsistent with its nuclide dictionary: the
declared count is 0 while one nuclide entry is present. -/
def c1ctrMat : Material := ⟨['a'], 0, 0, 0, 0, 0, 0, [(10010, 0)]⟩

/-- A material whose nnuc is consistent (0 nuclides) but whose one-character
name `"é"` is not ASCII: its UTF-8 encoding is two bytes, truncated by the
encoder to the one-byte character count, so the encoded record's name
bytes are no longer valid UTF-8. -/
def c1accMat : Material := ⟨['é'], 0, 0, 0, 0, 0, 0, []⟩

/-- A well-formed material (ASCII name, nnuc = 1 = number of nuclide
entries). -/
def c1witMat : Material := ⟨['f'], 1, 2, 1, 3, 4, 5, [(922350, 6)]⟩

/-- Material named `"a"` for the write-binary demonstration. -/
def c3matA : Material := ⟨['a'], 0, 0, 0, 0, 0, 0, []⟩

/-- Material named `"a"` as it appears in the second snapshot. -/
def c3matA1 : Material := ⟨['a'], 0, 0, 0, 1, 0, 0, []⟩

/-- Material named `"b"`, present only in the second snapshot. -/
def c3matB : Material := ⟨['b'], 0, 0, 0, 2, 0, 0, []⟩

/-- Store with two snapshots whose material sets differ: snapshot 0 holds
`"a"`, snapshot 1 holds `"a"` and `"b"`. -/
def c3Snaps : List (Int × Snapshot) :=
  [(0, [(['a'], c3matA)]), (1, [(['a'], c3matA1), (['b'], c3matB)])]

/-- Record with the given one-byte name and `bu_global` pattern, no
nuclides. -/
def snapMat (nm : Char) (bg : F64) : Material := ⟨[nm], bg, 0, 0, 0, 0, 0, []⟩

/-- Stream of five records with distinct names whose `bu_global` values
are 0.0, 0.0, 1.5, 1.5, 1.5. -/
def c4Stream : List Nat :=
  (([snapMat 'a' 0, snapMat 'b' 0, snapMat 'c' 4609434218613702656,
     snapMat 'd' 4609434218613702656,
     snapMat 'e' 4609434218613702656]).map
    (fun m => (m.to_binary).getD [])).flatten

/-- Stream of a single record, used to instantiate the sentinel-extraction
claim. -/
def c6Stream : List Nat := ((snapMat 'a' 0).to_binary).getD []

/-- The store `c6Stream` assembles to: one snapshot, index 0. -/
def c6Store : RestartStore :=
  ⟨[(0, [(['a'], snapMat 'a' 0)])], [(0, 0)], [(0, 0)]⟩

/-- Snapshot `{"m1": X}` (first-supplied merge source). -/
def c7fst : Snapshot := [(['m', '1'], ⟨['m', '1'], 0, 0, 0, 10, 0, 0, []⟩)]

/-- Snapshot `{"m1": Y, "m2": Z}` (later-supplied merge source). -/
def c7snd : Snapshot :=
  [(['m', '1'], ⟨['m', '1'], 0, 0, 0, 20, 0, 0, []⟩),
   (['m', '2'], ⟨['m', '2'], 0, 0, 0, 30, 0, 0, []⟩)]

/-- Binary block declaring `nnuc = 2` whose two nuclide pairs carry the
same identifier 541350 with densities 7 and then 9. -/
def c9Stream : List Nat :=
  int64Bytes 1 ++ [97] ++ toBytesLE 8 0 ++ toBytesLE 8 0 ++ int64Bytes 2 ++
    toBytesLE 8 0 ++ toBytesLE 8 0 ++ toBytesLE 8 0 ++
    int64Bytes 541350 ++ toBytesLE 8 7 ++ int64Bytes 541350 ++ toBytesLE 8 9

/-- The material `c9Stream` decodes to: declared count 2, one dictionary
entry, last density wins. -/
def c9Mat : Material := ⟨['a'], 0, 0, 2, 0, 0, 0, [(541350, 9)]⟩

/-- Per-entry check of the element table used by the translator
round-trip: the atomic number resolves to a symbol whose last character is
not a digit, and the symbol reverse-resolves to the same atomic number. -/
def elemOK (Z : Nat) : Bool :=
  match lookupZ Z with
  | none => false
  | some sym =>
    (match sym.data.reverse with
     | [] => false
     | c :: _ => !c.isDigit) && decide (lookupSym sym = some Z)

/-- The table check over all 112 atomic numbers. -/
def elemTableOK : Bool := (List.range 112).all (fun k => elemOK (k + 1))

/-- Reading an 8-byte field consumes exactly 8 bytes. -/
theorem readWord_some_length {s : List Nat} {p : F64 × List Nat}
    (h : readWord s = some p) : p.2.length + 8 = s.length := by
  simp only [readWord] at h
  split at h
  · cases h
    simp only [List.length_drop]
    omega
  · cases h

/-- Reading an 8-byte signed field consumes exactly 8 bytes. -/
theorem readInt64_some_length {s : List Nat} {p : Int × List Nat}
    (h : readInt64 s = some p) : p.2.length + 8 = s.length := by
  simp only [readInt64] at h
  split at h
  · cases h
    simp only [List.length_drop]
    omega
  · cases h

/-- The nuclide loop never lengthens the remaining stream. -/
theorem readNucs_some_length {k : Nat} {s : List Nat} {acc a : List (Int × F64)}
    {r : List Nat} (h : readNucs k s acc = some (a, r)) : r.length ≤ s.length := by
  induction k generalizing s acc with
  | zero =>
    simp only [readNucs] at h
    cases h
    exact Nat.le_refl _
  | succ k ih =>
    simp only [readNucs] at h
    split at h
    · cases h
    · rename_i zai s1 heq1
      split at h
      · cases h
      · rename_i ad s2 heq2
        have e1 := readInt64_some_length heq1
        have e2 := readWord_some_length heq2
        have e3 := ih h
        simp only at e1 e2
        omega

/-- Consuming a successfully decoded record strictly shortens the stream
(a record is at least 56 bytes); this supports termination of `readLoop`. -/
theorem read_ok_length {s : List Nat} {m : Material} {rest : List Nat}
    (h : Material.read s = .ok m rest) : rest.length < s.length := by
  simp only [Material.read] at h
  split at h
  · cases h
  · rename_i hne
    have hpos : 0 < s.length := by
      cases s
      · exact absurd rfl hne
      · simp
    split at h
    · cases h
    · rename_i n s1 heq1
      have e1 := readInt64_some_length heq1
      simp only at e1
      split at h
      · cases h
      · split at h
        · cases h
        · split at h
          · cases h
          · rename_i nm heqnm
            split at h
            · cases h
            · rename_i w2 s3 heq2
              have e2 := readWord_some_length heq2
              have edrop : (s1.drop n.toNat).length ≤ s1.length := by
                simp only [List.length_drop]
                omega
              simp only at e2
              split at h
              · cases h
              · rename_i w3 s4 heq3
                have e3 := readWord_some_length heq3
                simp only at e3
                split at h
                · cases h
                · rename_i n4 s5 heq4
                  have e4 := readInt64_some_length heq4
                  simp only at e4
                  split at h
                  · cases h
                  · rename_i w5 s6 heq5
                    have e5 := readWord_some_length heq5
                    simp only at e5
                    split at h
                    · cases h
                    · rename_i w6 s7 heq6
                      have e6 := readWord_some_length heq6
                      simp only at e6
                      split at h
                      · cases h
                      · rename_i w7 s8 heq7
                        have e7 := readWord_some_length heq7
                        simp only at e7
                        split at h
                        · cases h
                        · rename_i nucs s9 heq8
                          have e8 := readNucs_some_length heq8
                          cases h
                          omega

/-- Any fuel larger than the stream length gives the same result: the
fuel bound in `read_restart` never cuts the loop short. -/
theorem readLoop_fuel_irrel : ∀ (fuel fuel' : Nat) (s : List Nat)
    (store : RestartStore) (cs : Int), s.length < fuel → s.length < fuel' →
    readLoop fuel s store cs = readLoop fuel' s store cs := by
  intro fuel
  induction fuel with
  | zero =>
    intro fuel' s store cs h
    exact absurd h (Nat.not_lt_zero _)
  | succ fuel ih =>
    intro fuel' s store cs h h'
    cases fuel' with
    | zero => exact absurd h' (Nat.not_lt_zero _)
    | succ fuel' =>
      simp only [readLoop]
      cases hr : Material.read s with
      | eof => rfl
      | corrupt => rfl
      | ok m rest =>
        have hlen := read_ok_length hr
        exact ih fuel' rest _ _ (by omega) (by omega)

/-- Encoding a word always yields exactly `k` bytes. -/
@[simp] theorem toBytesLE_length (k n : Nat) : (toBytesLE k n).length = k := by
  induction k generalizing n with
  | zero => rfl
  | succ k ih => simp [toBytesLE, ih]

/-- Encoding a signed 64-bit value yields exactly 8 bytes. -/
@[simp] theorem int64Bytes_length (z : Int) : (int64Bytes z).length = 8 :=
  toBytesLE_length 8 _

/-- A value below `256 ^ k` survives the `k`-byte encode/decode. -/
theorem fromBytes_toBytes (k n : Nat) (h : n < 256 ^ k) :
    fromBytesLE (toBytesLE k n) = n := by
  induction k generalizing n with
  | zero =>
    simp only [toBytesLE, fromBytesLE]
    simp only [pow_zero] at h
    omega
  | succ k ih =>
    simp only [toBytesLE, fromBytesLE]
    rw [ih (n / 256) (Nat.div_lt_of_lt_mul (by rw [pow_succ] at h; omega))]
    omega

/-- An in-range signed value survives `struct.pack("q")` then
`struct.unpack("q")`. -/
theorem int64_roundtrip (z : Int) (hlo : -(2 ^ 63) ≤ z) (hhi : z < 2 ^ 63) :
    bytesToInt64 (int64Bytes z) = z := by
  have h1 : 0 ≤ z % 2 ^ 64 := Int.emod_nonneg z (by norm_num)
  have h2 : z % 2 ^ 64 < 2 ^ 64 := Int.emod_lt_of_pos z (by norm_num)
  have hub : (z % 2 ^ 64).toNat < 256 ^ 8 := by
    have h256 : (256 : Nat) ^ 8 = 2 ^ 64 := by norm_num
    rw [h256]
    omega
  simp only [bytesToInt64, int64Bytes]
  rw [fromBytes_toBytes 8 _ hub]
  split
  · rename_i hsmall
    omega
  · rename_i hbig
    omega

/-- Reading a word field off an encoded word consumes it exactly. -/
theorem readWord_bytes (w : F64) (rest : List Nat) (h : w < 2 ^ 64) :
    readWord (toBytesLE 8 w ++ rest) = some (w, rest) := by
  have hlen : (toBytesLE 8 w).length = 8 := toBytesLE_length 8 w
  simp only [readWord, List.length_append, hlen]
  rw [if_pos (by omega), List.take_left' hlen, List.drop_left' hlen,
    fromBytes_toBytes 8 w (by have h256 : (256 : Nat) ^ 8 = 2 ^ 64 := by norm_num
                              rw [h256]; exact h)]

/-- Reading a signed field off an encoded in-range value consumes it
exactly. -/
theorem readInt64_bytes (z : Int) (rest : List Nat) (hlo : -(2 ^ 63) ≤ z)
    (hhi : z < 2 ^ 63) :
    readInt64 (int64Bytes z ++ rest) = some (z, rest) := by
  have hlen : (int64Bytes z).length = 8 := int64Bytes_length z
  simp only [readInt64, List.length_append, hlen]
  rw [if_pos (by omega), List.take_left' hlen, List.drop_left' hlen,
    int64_roundtrip z hlo hhi]

/-- Assigning a fresh key appends it. -/
theorem assocInsert_not_mem {α β : Type} [DecidableEq α] (l : List (α × β))
    (k : α) (v : β) (h : ∀ p ∈ l, p.1 ≠ k) :
    assocInsert l k v = l ++ [(k, v)] := by
  simp only [assocInsert]
  rw [if_neg]
  intro hany
  obtain ⟨p, hp, hpk⟩ := List.any_eq_true.mp hany
  exact h p hp (by simpa using hpk)

/-- The nuclide loop decodes an encoded dictionary with distinct in-range
identifiers back to itself (appended after the accumulator). -/
theorem readNucs_encode : ∀ (l acc : List (Int × F64)) (rest : List Nat),
    (∀ p ∈ l, -(2 ^ 63) ≤ p.1 ∧ p.1 < 2 ^ 63 ∧ p.2 < 2 ^ 64) →
    (((acc ++ l).map (fun p => p.1)).Nodup) →
    readNucs l.length (nuclideBytes l ++ rest) acc = some (acc ++ l, rest) := by
  intro l
  induction l with
  | nil =>
    intro acc rest hok hnodup
    simp [readNucs, nuclideBytes]
  | cons p t ih =>
    intro acc rest hok hnodup
    obtain ⟨k, v⟩ := p
    obtain ⟨hk1, hk2, hv⟩ := hok (k, v) (List.mem_cons_self _ _)
    simp only [nuclideBytes, List.map_cons, List.flatten_cons, List.length_cons,
      List.append_assoc, readNucs]
    have e1 := readInt64_bytes k
      (toBytesLE 8 v ++ ((t.map (fun p => int64Bytes p.1 ++ toBytesLE 8 p.2)).flatten
        ++ rest)) hk1 hk2
    have e2 := readWord_bytes v
      ((t.map (fun p => int64Bytes p.1 ++ toBytesLE 8 p.2)).flatten ++ rest) hv
    rw [e1]
    simp only [e2]
    have hknotin : ∀ q ∈ acc, q.1 ≠ k := by
      have h1 : ((acc.map (fun p => p.1)) ++
          (((k, v) :: t).map (fun p => p.1))).Nodup := by
        rw [← List.map_append]
        exact hnodup
      rw [List.nodup_append] at h1
      obtain ⟨-, -, hdisj⟩ := h1
      intro q hq hqk
      exact hdisj (List.mem_map_of_mem _ hq) (by simp [hqk])
    rw [assocInsert_not_mem acc k v hknotin]
    have hok2 : ∀ q ∈ t, -(2 ^ 63) ≤ q.1 ∧ q.1 < 2 ^ 63 ∧ q.2 < 2 ^ 64 :=
      fun q hq => hok q (List.mem_cons_of_mem _ hq)
    have hnodup2 : (((acc ++ [(k, v)]) ++ t).map (fun p => p.1)).Nodup := by
      rw [List.append_assoc]
      simpa using hnodup
    have e3 := ih (acc ++ [(k, v)]) rest hok2 hnodup2
    simp only [nuclideBytes] at e3
    rw [e3]
    simp [List.append_assoc]

/-- An ASCII character encodes to its own single byte. -/
theorem utf8EncodeChar_ascii (c : Char) (h : c.toNat < 128) :
    utf8EncodeChar c = [c.toNat] := by
  simp [utf8EncodeChar, h]

/-- An ASCII string encodes byte-for-byte, one byte per character. -/
theorem utf8Encode_ascii (name : List Char) (h : ∀ c ∈ name, c.toNat < 128) :
    utf8Encode name = name.map Char.toNat := by
  induction name with
  | nil => rfl
  | cons c cs ih =>
    simp only [utf8Encode, List.map_cons, List.flatten_cons]
    rw [utf8EncodeChar_ascii c (h c (List.mem_cons_self _ _))]
    have htail := ih (fun x hx => h x (List.mem_cons_of_mem _ hx))
    simp only [utf8Encode] at htail
    rw [htail]
    rfl

/-- On ASCII bytes the decode loop appends the characters after the
accumulator. -/
theorem utf8DecodeLoop_ascii (name : List Char) (h : ∀ c ∈ name, c.toNat < 128) :
    ∀ acc : List Char, utf8DecodeLoop (name.map Char.toNat) 0 0 0 acc =
      some (acc.reverse ++ name) := by
  induction name with
  | nil =>
    intro acc
    simp [utf8DecodeLoop]
  | cons c cs ih =>
    intro acc
    simp only [List.map_cons, utf8DecodeLoop]
    rw [if_pos (h c (List.mem_cons_self _ _)), Char.ofNat_toNat,
      ih (fun x hx => h x (List.mem_cons_of_mem _ hx)) (c :: acc)]
    simp

/-- The byte list of an ASCII string decodes back to the string. -/
theorem utf8Decode_ascii (name : List Char) (h : ∀ c ∈ name, c.toNat < 128) :
    utf8Decode (name.map Char.toNat) = some name := by
  rw [utf8Decode, utf8DecodeLoop_ascii name h []]
  rfl

/-- For an ASCII name the packed name field is the whole encoding: the
byte count equals the character count, so the truncation and the padding
are both empty. -/
theorem nameField_ascii (name : List Char) (h : ∀ c ∈ name, c.toNat < 128) :
    nameField name = name.map Char.toNat := by
  have henc := utf8Encode_ascii name h
  simp only [nameField, henc, List.length_map]
  rw [show name.length - name.length = 0 by omega]
  simp only [List.replicate, List.append_nil]
  rw [show name.length = (name.map Char.toNat).length from
    (List.length_map name Char.toNat).symm, List.take_length]

/-- C1 (amended): the codec round-trip holds for every Material whose
`nnuc` field equals the number of entries of its nuclide dictionary and
whose name consists of ASCII characters (so the character count packed as
the name length equals the UTF-8 byte count and nothing is truncated):
for any such non-empty name, any scalar fields and any nuclide dictionary
with distinct identifiers, when encoding succeeds (all integer fields fit
the signed 64-bit format), decoding the produced bytes consumes them all
and returns a material equal to the original in every field. -/
theorem claim_C1_roundtrip (m : Material) (bs : List Nat)
    (hname : m.name ≠ [])
    (hascii : ∀ c ∈ m.name, c.toNat < 128)
    (hnn : m.nnuc = (m.nuclides.length : Int))
    (hnodup : (m.nuclides.map (fun p => p.1)).Nodup)
    (henc : m.to_binary = some bs) :
    Material.read bs = ReadResult.ok m [] := by
  obtain ⟨name, bug, bud, nnuc, ad, md, bu, nucs⟩ := m
  simp only [Material.to_binary] at henc
  split at henc
  · rename_i hpack
    cases henc
    simp only [Material.packable, Bool.and_eq_true, decide_eq_true_eq,
      List.all_eq_true, inInt64] at hpack
    obtain ⟨⟨⟨⟨⟨⟨⟨hlen, hnc⟩, hbg⟩, hbd⟩, had⟩, hmd⟩, hbu⟩, hnucsok⟩ := hpack
    dsimp only at hnn hname hnodup hascii
    subst hnn
    have hok : ∀ p ∈ nucs, -(2 ^ 63) ≤ p.1 ∧ p.1 < 2 ^ 63 ∧ p.2 < 2 ^ 64 := by
      intro p hp
      have := hnucsok p hp
      exact ⟨this.1.1, this.1.2, this.2⟩
    rw [nameField_ascii name hascii]
    simp only [Material.read, List.append_assoc]
    rw [if_neg (by
      intro h0
      have := congrArg List.length h0
      simp at this)]
    have E1 : ∀ r : List Nat, readInt64 (int64Bytes ((name.length : Int)) ++ r) =
        some (((name.length : Int)), r) :=
      fun r => readInt64_bytes _ r (by omega) (by omega)
    have EC : ∀ r : List Nat, readInt64 (int64Bytes ((nucs.length : Int)) ++ r) =
        some (((nucs.length : Int)), r) :=
      fun r => readInt64_bytes _ r (by omega) (by omega)
    have EB1 : ∀ r : List Nat, readWord (toBytesLE 8 bug ++ r) = some (bug, r) :=
      fun r => readWord_bytes _ r hbg
    have EB2 : ∀ r : List Nat, readWord (toBytesLE 8 bud ++ r) = some (bud, r) :=
      fun r => readWord_bytes _ r hbd
    have EA : ∀ r : List Nat, readWord (toBytesLE 8 ad ++ r) = some (ad, r) :=
      fun r => readWord_bytes _ r had
    have EM : ∀ r : List Nat, readWord (toBytesLE 8 md ++ r) = some (md, r) :=
      fun r => readWord_bytes _ r hmd
    have EU : ∀ r : List Nat, readWord (toBytesLE 8 bu ++ r) = some (bu, r) :=
      fun r => readWord_bytes _ r hbu
    have E8 : readNucs nucs.length (nuclideBytes nucs) [] = some (nucs, []) := by
      have h8 := readNucs_encode nucs [] [] hok (by simpa using hnodup)
      rw [List.append_nil] at h8
      simpa using h8
    have hmlen : (name.map Char.toNat).length = name.length :=
      List.length_map name Char.toNat
    have Etake : ∀ r : List Nat,
        ((name.map Char.toNat) ++ r).take name.length = name.map Char.toNat :=
      fun r => List.take_left' hmlen
    have Edrop : ∀ r : List Nat,
        ((name.map Char.toNat) ++ r).drop name.length = r :=
      fun r => List.drop_left' hmlen
    have Edec := utf8Decode_ascii name hascii
    simp only [E1, EC, EB1, EB2, EA, EM, EU, Int.toNat_natCast, Etake, Edrop,
      Edec, List.length_append, E8]
    rw [if_neg (by omega), if_neg (by omega)]
  · cases henc

/-- C1 witness: a concrete consistent material (nnuc = 1, one nuclide)
round-trips through encode then decode. -/
theorem claim_C1_witness :
    Material.read ((c1witMat.to_binary).getD []) = ReadResult.ok c1witMat [] :=
  claim_C1_roundtrip c1witMat ((c1witMat.to_binary).getD []) (by decide)
    (by decide) (by decide) (by decide) (by decide)

/-- C1 (counterexample): the round-trip fails twice over for arbitrary
Materials.  `c1ctrMat` has a non-empty name, scalar fields including
`nnuc = 0`, and one nuclide entry: encoding writes the entry but declares
0 pairs, so decoding the encoded bytes yields a material with an empty
nuclide dictionary, not the original.  `c1accMat` has consistent counts
but the non-ASCII one-character name `"é"`: the encoder truncates its
two-byte UTF-8 encoding to the one-byte character count, and decoding the
encoded record aborts with `UnicodeDecodeError` on the dangling lead
byte. -/
theorem claim_C1_counterexample :
    decodeMaterial ((c1ctrMat.to_binary).getD []) ≠ some c1ctrMat ∧
      decodeMaterial ((c1accMat.to_binary).getD []) ≠ some c1accMat := by decide

/-- C3: with `material_names` omitted and both snapshots selected by
default, `write_binary` emits, for each snapshot, only the materials named
in the first selected snapshot: material `"b"` of snapshot 1 is silently
dropped, so the output is the blocks of `"a"` from snapshots 0 and 1 and
not the full content of each snapshot. -/
theorem claim_C3_first_snapshot_names :
    write_binary c3Snaps none none =
      some (((c3matA.to_binary).getD []) ++ ((c3matA1.to_binary).getD [])) ∧
    write_binary c3Snaps none none ≠
      some (((c3matA.to_binary).getD []) ++ ((c3matA1.to_binary).getD []) ++
        ((c3matB.to_binary).getD [])) := by decide

/-- C4: a new snapshot is opened exactly when no snapshot exists yet or
the incoming record's `bu_global` differs (exact equality on the float
pattern) from the most recently recorded snapshot's `bu_global`; and the
concrete stream with `bu_global` sequence 0.0, 0.0, 1.5, 1.5, 1.5 over
five distinctly named records assembles into exactly 2 snapshots holding
2 and 3 records. -/
theorem claim_C4_boundary :
    (∀ (store : RestartStore) (cs : Int) (m : Material),
      (processRecord store cs m).1.snapshots.length = store.snapshots.length + 1 ↔
        (store.burnups = [] ∨ m.bu_global ≠ lastBurnup store)) ∧
    (read_restart c4Stream).map
      (fun st => st.snapshots.map (fun p => p.2.length)) = some [2, 3] := by
  constructor
  · intro store cs m
    by_cases hcond : store.burnups = [] ∨ m.bu_global ≠ lastBurnup store
    · simp only [processRecord, if_pos hcond, storeMaterial]
      simp [hcond]
    · simp only [processRecord, if_neg hcond, storeMaterial]
      simp [hcond]
  · decide

/-- C5: reading from an exhausted stream signals end-of-stream (not an
error), and assembling an empty stream succeeds with a store holding zero
snapshots. -/
theorem claim_C5_empty_stream :
    Material.read [] = ReadResult.eof ∧
      read_restart [] = some ⟨[], [], []⟩ ∧
      ((⟨[], [], []⟩ : RestartStore)).snapshots.length = 0 := by decide

/-- C8: constructing a `Restart_File` succeeds exactly when exactly one of
the three arguments path, snapshots, materials is supplied; with zero or
two or more supplied the constructor raises and no store is produced. -/
theorem claim_C8_construction (p : Option String)
    (sn : Option (List (Int × Snapshot))) (m : Option Snapshot) :
    (Restart_File.init p sn m).isSome ↔
      [p.isSome, sn.isSome, m.isSome].count true = 1 := by
  cases p <;> cases sn <;> cases m <;>
    simp [Restart_File.init]

/-- C8 witness: initializing from a path alone succeeds. -/
theorem claim_C8_witness :
    (Restart_File.init (some "restart.wrk") none none).isSome :=
  (claim_C8_construction (some "restart.wrk") none none).mpr (by decide)

/-- C9: decoding a record whose two declared nuclide pairs share one
identifier yields `nnuc = 2` but a single-entry nuclide dictionary (the
later density wins), and re-encoding that material declares 2 pairs while
writing only 1, so its own output no longer parses as one record. -/
theorem claim_C9_duplicate_nuclides :
    Material.read c9Stream = ReadResult.ok c9Mat [] ∧ c9Mat.nnuc = 2 ∧
      c9Mat.nuclides.length = 1 ∧
      Material.read ((c9Mat.to_binary).getD []) = ReadResult.corrupt := by decide

/-- C10: `translate` on an all-digit input whose final digit is 2 through
9 takes neither assignment branch for `ZA` and fails with
`UnboundLocalError`, rather than returning a name or reporting an unknown
element. -/
theorem claim_C10_trailing_digit (s : String) (c : Char)
    (hall : s.data.all (fun ch => ch.isDigit) = true)
    (hlast : s.data.getLast? = some c)
    (h2 : 50 ≤ c.toNat) (h9 : c.toNat ≤ 57) :
    translate s = Except.error TransErr.unboundLocal := by
  have hne : s.data ≠ [] := by
    intro h0
    rw [h0] at hlast
    cases hlast
  obtain ⟨ys, hys⟩ : ∃ ys, s.data = ys ++ [c] :=
    ⟨s.data.dropLast, (List.dropLast_append_getLast? c (Option.mem_def.mpr hlast)).symm⟩
  have hval : strVal s.data % 10 = c.toNat - 48 := by
    rw [hys]
    unfold strVal
    rw [List.foldl_append]
    simp only [List.foldl]
    omega
  simp only [translate, if_pos (And.intro hne hall)]
  simp only [toName]
  rw [if_neg]
  omega

/-- C10 witness: `translate "10012"` raises `UnboundLocalError`. -/
theorem claim_C10_witness :
    translate "10012" = Except.error TransErr.unboundLocal :=
  claim_C10_trailing_digit "10012" '2' (by decide) (by decide) (by decide)
    (by decide)

/-- Lookup on a non-empty dictionary checks the head entry first. -/
theorem assocFind_cons {α β : Type} [DecidableEq α] (p : α × β)
    (t : List (α × β)) (n : α) :
    assocFind (p :: t) n = if p.1 = n then some p.2 else assocFind t n := by
  simp only [assocFind, List.find?]
  by_cases h : p.1 = n
  · simp [h]
  · simp [h]

/-- First-match lookup searches the left list first. -/
theorem assocFind_append {α β : Type} [DecidableEq α] (l1 l2 : List (α × β))
    (n : α) :
    assocFind (l1 ++ l2) n =
      (assocFind l1 n).orElse (fun _ => assocFind l2 n) := by
  induction l1 with
  | nil => simp [assocFind]
  | cons p t ih =>
    rw [List.cons_append, assocFind_cons, assocFind_cons]
    by_cases h : p.1 = n
    · simp [h]
    · simp only [if_neg h, ih]

/-- Overwriting key `k` in place does not change the lookup of another
key. -/
theorem assocFind_map_ne {α β : Type} [DecidableEq α] (l : List (α × β))
    (k n : α) (v : β) (hne : n ≠ k) :
    assocFind (l.map (fun p => if p.1 = k then (k, v) else p)) n =
      assocFind l n := by
  induction l with
  | nil => rfl
  | cons p t ih =>
    rw [List.map_cons, assocFind_cons, assocFind_cons]
    by_cases hp : p.1 = k
    · rw [if_pos hp]
      have h1 : ¬((k, v).1 = n) := fun h => hne (h.symm)
      rw [if_neg h1, if_neg (fun h => hne ((hp ▸ h).symm)), ih]
    · rw [if_neg hp, ih]

/-- Overwriting a present key `k` in place makes its lookup the new
value. -/
theorem assocFind_map_self {α β : Type} [DecidableEq α] (l : List (α × β))
    (k : α) (v : β) (hk : l.any (fun p => decide (p.1 = k)) = true) :
    assocFind (l.map (fun p => if p.1 = k then (k, v) else p)) k = some v := by
  induction l with
  | nil => cases hk
  | cons p t ih =>
    rw [List.map_cons, assocFind_cons]
    by_cases hp : p.1 = k
    · rw [if_pos hp, if_pos rfl]
    · rw [if_neg hp, if_neg hp]
      apply ih
      simp only [List.any_cons, Bool.or_eq_true, decide_eq_true_eq] at hk
      rcases hk with h | h
      · exact absurd h hp
      · exact h

/-- Unfolding law for `Option.orElse` on `none`. -/
theorem none_orElse2 {β : Type} (f : Unit → Option β) :
    (none : Option β).orElse f = f () := rfl

/-- Unfolding law for `Option.orElse` on `some`. -/
theorem some_orElse2 {β : Type} (a : β) (f : Unit → Option β) :
    (some a).orElse f = some a := rfl

/-- Dictionary assignment makes the assigned key's lookup the new value
and leaves every other key's lookup unchanged. -/
theorem assocFind_insert {α β : Type} [DecidableEq α] (l : List (α × β))
    (k n : α) (v : β) :
    assocFind (assocInsert l k v) n = if n = k then some v else assocFind l n := by
  by_cases hmem : l.any (fun p => decide (p.1 = k)) = true
  · simp only [assocInsert, if_pos hmem]
    by_cases hn : n = k
    · subst hn
      rw [assocFind_map_self l n v hmem, if_pos rfl]
    · rw [assocFind_map_ne l k n v hn, if_neg hn]
  · simp only [assocInsert, hmem, Bool.false_eq_true, if_false]
    rw [assocFind_append]
    have hfind : List.find? (fun p => decide (p.1 = k)) l = none := by
      rw [List.find?_eq_none]
      intro x hx
      simp only [decide_eq_true_eq]
      intro hxk
      exact hmem (List.any_eq_true.mpr ⟨x, hx, by simp [hxk]⟩)
    have hnone : assocFind l k = none := by
      simp [assocFind, hfind]
    by_cases hn : n = k
    · subst hn
      rw [hnone, if_pos rfl, none_orElse2, assocFind_cons]
      simp
    · rw [if_neg hn]
      cases hfind2 : assocFind l n with
      | some w => rw [some_orElse2]
      | none =>
        rw [none_orElse2, assocFind_cons, if_neg (fun h => hn h.symm)]
        rfl

/-- C7: the dictionary merge is right-biased: the merged lookup is the
later-supplied source's lookup when the name is present there, otherwise
the earlier source's, so the result is the union of the two key sets with
the later source winning on shared names. -/
theorem claim_C7_right_biased_merge (a b : Snapshot) (n : List Char)
    (hb : (b.map (fun p => p.1)).Nodup) :
    assocFind (mergeMaterials a b) n =
      (assocFind b n).orElse (fun _ => assocFind a n) := by
  induction b generalizing a with
  | nil => simp [mergeMaterials, assocFind]
  | cons p t ih =>
    obtain ⟨k, v⟩ := p
    simp only [List.map_cons, List.nodup_cons] at hb
    obtain ⟨hk, ht⟩ := hb
    have hfold : mergeMaterials a ((k, v) :: t) =
        mergeMaterials (assocInsert a k v) t := rfl
    rw [hfold, ih (assocInsert a k v) ht, assocFind_cons]
    by_cases hn : n = k
    · subst hn
      have htn : assocFind t n = none := by
        have hfind : List.find? (fun p => decide (p.1 = n)) t = none := by
          rw [List.find?_eq_none]
          intro x hx
          simp only [decide_eq_true_eq]
          intro hxk
          exact hk (hxk ▸ List.mem_map_of_mem _ hx)
        simp [assocFind, hfind]
      rw [htn, assocFind_insert, if_pos rfl, none_orElse2]
      simp
    · rw [assocFind_insert, if_neg hn, if_neg (fun h => hn h.symm)]

/-- C7 witness: merging `{"m1": X}` then `{"m1": Y, "m2": Z}` satisfies the
right-biased lookup law and yields exactly `{"m1": Y, "m2": Z}`. -/
theorem claim_C7_witness :
    (assocFind (mergeMaterials c7fst c7snd) ['m', '1'] =
      (assocFind c7snd ['m', '1']).orElse
        (fun _ => assocFind c7fst ['m', '1'])) ∧
    mergeMaterials c7fst c7snd = c7snd :=
  ⟨claim_C7_right_biased_merge c7fst c7snd ['m', '1'] (by decide), by decide⟩

/-- Storing a material into an existing snapshot does not change the
snapshot key list. -/
theorem storeMaterial_keys (store : RestartStore) (cs : Int) (m : Material) :
    (storeMaterial store cs m).snapshots.map (fun p => p.1) =
      store.snapshots.map (fun p => p.1) := by
  simp only [storeMaterial, List.map_map]
  apply List.map_congr_left
  intro p _
  by_cases h : p.1 = cs
  · simp [h]
  · simp [h]

/-- Storing a material into an existing snapshot does not change the
snapshot count. -/
theorem storeMaterial_length (store : RestartStore) (cs : Int) (m : Material) :
    (storeMaterial store cs m).snapshots.length = store.snapshots.length := by
  simp [storeMaterial]

/-- One assembler step preserves the invariant: snapshot keys are
`0, 1, ..., length - 1` in order and `current_step` is the last index. -/
theorem processRecord_inv (store : RestartStore) (cs : Int) (m : Material)
    (hkeys : store.snapshots.map (fun p => p.1) =
      (List.range store.snapshots.length).map (fun n : Nat => (n : Int)))
    (hcs : cs = (store.snapshots.length : Int) - 1) :
    (processRecord store cs m).1.snapshots.map (fun p => p.1) =
      (List.range (processRecord store cs m).1.snapshots.length).map
        (fun n : Nat => (n : Int)) ∧
    (processRecord store cs m).2 =
      ((processRecord store cs m).1.snapshots.length : Int) - 1 := by
  by_cases hcond : store.burnups = [] ∨ m.bu_global ≠ lastBurnup store
  · simp only [processRecord, if_pos hcond]
    rw [storeMaterial_keys, storeMaterial_length]
    simp only [List.map_append, List.length_append, List.length_singleton,
      List.map_cons, List.map_nil]
    have hstep : cs + 1 = (store.snapshots.length : Int) := by omega
    constructor
    · rw [hkeys, List.range_succ, List.map_append, hstep]
      simp
    · rw [hstep]
      push_cast
      omega
  · simp only [processRecord, if_neg hcond]
    rw [storeMaterial_keys, storeMaterial_length]
    exact ⟨hkeys, hcs⟩

/-- Every store assembled by `readLoop` from a state satisfying the key
invariant has snapshot keys `0, 1, ..., length - 1` in order. -/
theorem readLoop_keys : ∀ (fuel : Nat) (s : List Nat) (store : RestartStore)
    (cs : Int) (st : RestartStore),
    readLoop fuel s store cs = some st →
    store.snapshots.map (fun p => p.1) =
      (List.range store.snapshots.length).map (fun n : Nat => (n : Int)) →
    cs = (store.snapshots.length : Int) - 1 →
    st.snapshots.map (fun p => p.1) =
      (List.range st.snapshots.length).map (fun n : Nat => (n : Int)) := by
  intro fuel
  induction fuel with
  | zero =>
    intro s store cs st h
    cases h
  | succ fuel ih =>
    intro s store cs st h hkeys hcs
    simp only [readLoop] at h
    cases hr : Material.read s with
    | eof =>
      rw [hr] at h
      cases h
      exact hkeys
    | corrupt =>
      rw [hr] at h
      cases h
    | ok m rest =>
      rw [hr] at h
      obtain ⟨hk2, hcs2⟩ := processRecord_inv store cs m hkeys hcs
      exact ih rest (processRecord store cs m).1 (processRecord store cs m).2
        st h hk2 hcs2

/-- C6: on a store assembled from a stream into at least one snapshot,
`extract_snapshot` with the sentinel index `-1` returns the snapshot at the
highest assigned index, `length - 1`, not index `-1` literally. -/
theorem claim_C6_sentinel (s : List Nat) (st : RestartStore)
    (hread : read_restart s = some st) (hne : st.snapshots ≠ []) :
    extract_snapshot st (-1) =
      assocFind st.snapshots ((st.snapshots.length : Int) - 1) := by
  have hkeys := readLoop_keys (s.length + 1) s ⟨[], [], []⟩ (-1) st hread
    (by simp) (by simp)
  obtain ⟨K, hK⟩ : ∃ K, st.snapshots.length = K + 1 := by
    cases hsnap : st.snapshots with
    | nil => exact absurd hsnap hne
    | cons p t => exact ⟨t.length, by simp [hsnap]⟩
  have hlast : (st.snapshots.map (fun p => p.1)).getLast? =
      some ((st.snapshots.length : Int) - 1) := by
    rw [hkeys, hK, List.range_succ, List.map_append]
    simp only [List.map_cons, List.map_nil, List.getLast?_concat]
    congr 1
    push_cast
    omega
  simp only [extract_snapshot]
  rw [if_true, hlast]

/-- C6 witness: a one-record stream assembles into one snapshot, and the
sentinel extraction returns the snapshot with index `length - 1 = 0`. -/
theorem claim_C6_witness :
    (extract_snapshot c6Store (-1) =
      assocFind c6Store.snapshots ((c6Store.snapshots.length : Int) - 1)) ∧
    extract_snapshot c6Store (-1) = some [(['a'], snapMat 'a' 0)] :=
  ⟨claim_C6_sentinel c6Stream c6Store (by decide) (by decide), by decide⟩

/-- The element table passes the check. -/
theorem elemTable_check : elemTableOK = true := by decide

/-- Facts extracted from the table check for one atomic number. -/
theorem elemOK_spec (Z : Nat) (h1 : 1 ≤ Z) (h2 : Z ≤ 112) :
    ∃ ls : List Char, lookupZ Z = some ⟨ls⟩ ∧
      (∃ c cs, ls.reverse = c :: cs ∧ c.isDigit = false) ∧
      lookupSym ⟨ls⟩ = some Z := by
  have hZ : elemOK Z = true := by
    have hall := elemTable_check
    rw [elemTableOK, List.all_eq_true] at hall
    have := hall (Z - 1) (List.mem_range.mpr (by omega))
    have heq : Z - 1 + 1 = Z := by omega
    rw [heq] at this
    exact this
  rw [elemOK] at hZ
  cases hlz : lookupZ Z with
  | none => rw [hlz] at hZ; cases hZ
  | some sym =>
    rw [hlz] at hZ
    obtain ⟨ls⟩ := sym
    dsimp only at hZ
    refine ⟨ls, rfl, ?_, ?_⟩
    · cases hrev : ls.reverse with
      | nil =>
        rw [hrev] at hZ
        cases hZ
      | cons c cs =>
        rw [hrev] at hZ
        simp only [Bool.and_eq_true, Bool.not_eq_true', decide_eq_true_eq] at hZ
        exact ⟨c, cs, rfl, hZ.1⟩
    · cases hrev : ls.reverse with
      | nil =>
        rw [hrev] at hZ
        cases hZ
      | cons c cs =>
        rw [hrev] at hZ
        simp only [Bool.and_eq_true, Bool.not_eq_true', decide_eq_true_eq] at hZ
        exact hZ.2

/-- Decimal digit characters are digits. -/
theorem digitChar_isDigit (d : Nat) (h : d < 10) : (digitChar d).isDigit = true := by
  interval_cases d <;> decide

/-- The structural digit builder computes the base-10 digit list. -/
theorem natCharsAux_eq (fuel n : Nat) (h : n ≤ fuel) :
    natCharsAux fuel n = (Nat.digits 10 n).map digitChar := by
  induction fuel generalizing n with
  | zero =>
    have h0 : n = 0 := by omega
    subst h0
    simp [natCharsAux]
  | succ fuel ih =>
    by_cases h0 : n = 0
    · subst h0
      simp [natCharsAux]
    · simp only [natCharsAux, if_neg h0]
      rw [Nat.digits_def' (by norm_num : (1 : Nat) < 10) (by omega),
        List.map_cons]
      congr 1
      refine ih (n / 10) ?_
      have := Nat.div_lt_self (by omega : 0 < n) (by norm_num : 1 < 10)
      omega

/-- The decimal string is the reversed digit list rendered as characters. -/
theorem natChars_eq (n : Nat) :
    natChars n =
      if n = 0 then ['0'] else ((Nat.digits 10 n).map digitChar).reverse := by
  by_cases h : n = 0
  · simp [natChars, h]
  · simp only [natChars, if_neg h]
    rw [natCharsAux_eq n n (Nat.le_refl n)]

/-- The decimal string of a natural number is non-empty. -/
theorem natChars_ne_nil (n : Nat) : natChars n ≠ [] := by
  rw [natChars_eq]
  by_cases h : n = 0
  · simp [h]
  · simp [h, Nat.digits_ne_nil_iff_ne_zero]

/-- Every character of a decimal string is a digit. -/
theorem natChars_all_digit (n : Nat) : ∀ c ∈ natChars n, c.isDigit = true := by
  intro c hc
  by_cases h : n = 0
  · subst h
    rw [show natChars 0 = ['0'] from rfl] at hc
    simp only [List.mem_singleton] at hc
    subst hc
    decide
  · rw [natChars_eq] at hc
    simp only [if_neg h, List.mem_reverse, List.mem_map] at hc
    obtain ⟨d, hd, rfl⟩ := hc
    exact digitChar_isDigit d (Nat.digits_lt_base (by norm_num) hd)

/-- A mass number between 100 and 999 has a three-digit decimal string. -/
theorem digits_len_three (A : Nat) (h1 : 100 ≤ A) (h2 : A ≤ 999) :
    (Nat.digits 10 A).length = 3 := by
  rw [Nat.digits_len 10 A (by norm_num) (by omega)]
  have : Nat.log 10 A = 2 :=
    Nat.log_eq_of_pow_le_of_lt_pow (by norm_num; omega) (by norm_num; omega)
  omega

/-- Decimal-string concatenation law for the supported code shape: with a
three-digit mass number the code's digit string is the element's atomic
number followed by the mass digits and the isomer digit. -/
theorem natChars_split (Z A I : Nat) (hZ : 1 ≤ Z) (hA1 : 100 ≤ A)
    (hA2 : A ≤ 999) (hI : I < 10) :
    natChars (Z * 10000 + A * 10 + I) =
      natChars Z ++ natChars A ++ [digitChar I] := by
  have hd1 : Nat.digits 10 (Z * 10000 + A * 10 + I) =
      I :: Nat.digits 10 (Z * 1000 + A) := by
    rw [Nat.digits_def' (by norm_num : (1 : Nat) < 10) (by omega),
      show (Z * 10000 + A * 10 + I) % 10 = I by omega,
      show (Z * 10000 + A * 10 + I) / 10 = Z * 1000 + A by omega]
  have hd2 : Nat.digits 10 (Z * 1000 + A) =
      Nat.digits 10 A ++ Nat.digits 10 Z := by
    have happ := @Nat.digits_append_digits 10 Z A (by norm_num)
    rw [digits_len_three A hA1 hA2] at happ
    rw [happ]
    congr 1
    ring
  simp only [natChars_eq, if_neg (by omega : ¬(Z * 10000 + A * 10 + I = 0)),
    if_neg (by omega : ¬(Z = 0)), if_neg (by omega : ¬(A = 0)), hd1, hd2]
  simp [List.reverse_append]

/-- `takeWhile` passes over a block that satisfies the test. -/
theorem takeWhile_append_all {α : Type} (p : α → Bool) (l1 l2 : List α)
    (h : ∀ x ∈ l1, p x = true) :
    (l1 ++ l2).takeWhile p = l1 ++ l2.takeWhile p := by
  induction l1 with
  | nil => simp
  | cons a t ih =>
    rw [List.cons_append, List.takeWhile_cons, h a (List.mem_cons_self _ _)]
    simp [ih (fun x hx => h x (List.mem_cons_of_mem _ hx))]

/-- `dropWhile` removes a whole block that satisfies the test. -/
theorem dropWhile_append_all {α : Type} (p : α → Bool) (l1 l2 : List α)
    (h : ∀ x ∈ l1, p x = true) :
    (l1 ++ l2).dropWhile p = l2.dropWhile p := by
  induction l1 with
  | nil => simp
  | cons a t ih =>
    rw [List.cons_append, List.dropWhile_cons, h a (List.mem_cons_self _ _)]
    simp [ih (fun x hx => h x (List.mem_cons_of_mem _ hx))]

/-- Strings append by appending their character lists. -/
theorem mkString_append (a b : List Char) :
    (String.mk a ++ String.mk b) = String.mk (a ++ b) := rfl

/-- Evaluation of the name branch of `translate` on a supported metastable
name: an element symbol ending in a non-digit followed by a non-zero mass
number and the suffix `"m"` translates to the concatenation of the atomic
number, the mass digits and the isomer flag 1. -/
theorem toCode_eval_m (ls : List Char) (A Z : Nat)
    (c0 : Char) (cs0 : List Char) (hrev : ls.reverse = c0 :: cs0)
    (hc0 : c0.isDigit = false)
    (hlookup : lookupSym ⟨ls⟩ = some Z) :
    toCode ((⟨ls⟩ : String) ++ natStr A ++ "m") =
      Except.ok (natStr Z ++ (⟨natChars A⟩ : String) ++ "1") := by
  have hallrev : ∀ c ∈ (natChars A).reverse, Char.isDigit c = true := by
    intro c hc
    exact natChars_all_digit A c (List.mem_reverse.mp hc)
  have hsplitTake : ((ls ++ natChars A).reverse).takeWhile
      (fun ch => ch.isDigit) = (natChars A).reverse := by
    rw [List.reverse_append, takeWhile_append_all _ _ _ hallrev, hrev,
      List.takeWhile_cons, hc0]
    simp
  have hsplitDrop : ((ls ++ natChars A).reverse).dropWhile
      (fun ch => ch.isDigit) = ls.reverse := by
    rw [List.reverse_append, dropWhile_append_all _ _ _ hallrev, hrev,
      List.dropWhile_cons, hc0]
    simp
  have hd : ((⟨ls⟩ : String) ++ natStr A ++ "m").data =
      (ls ++ natChars A) ++ ['m'] := rfl
  simp only [toCode, hd, List.getLast?_concat]
  simp only [if_true, List.dropLast_concat]
  rw [hsplitTake, hsplitDrop, List.reverse_reverse, List.reverse_reverse,
    hlookup]

/-- Evaluation of the name branch of `translate` on a supported
ground-state name: an element symbol ending in a non-digit followed by a
non-zero mass number translates to the concatenation of the atomic number,
the mass digits and the isomer flag 0. -/
theorem toCode_eval_plain (ls : List Char) (A Z : Nat)
    (c0 : Char) (cs0 : List Char) (hrev : ls.reverse = c0 :: cs0)
    (hc0 : c0.isDigit = false)
    (hlookup : lookupSym ⟨ls⟩ = some Z) :
    toCode ((⟨ls⟩ : String) ++ natStr A ++ "") =
      Except.ok (natStr Z ++ (⟨natChars A⟩ : String) ++ "0") := by
  have hallrev : ∀ c ∈ (natChars A).reverse, Char.isDigit c = true := by
    intro c hc
    exact natChars_all_digit A c (List.mem_reverse.mp hc)
  have hsplitTake : ((ls ++ natChars A).reverse).takeWhile
      (fun ch => ch.isDigit) = (natChars A).reverse := by
    rw [List.reverse_append, takeWhile_append_all _ _ _ hallrev, hrev,
      List.takeWhile_cons, hc0]
    simp
  have hsplitDrop : ((ls ++ natChars A).reverse).dropWhile
      (fun ch => ch.isDigit) = ls.reverse := by
    rw [List.reverse_append, dropWhile_append_all _ _ _ hallrev, hrev,
      List.dropWhile_cons, hc0]
    simp
  have hd : ((⟨ls⟩ : String) ++ natStr A ++ "").data = ls ++ natChars A := by
    show (ls ++ natChars A) ++ [] = ls ++ natChars A
    simp
  obtain ⟨cl, hcl⟩ : ∃ cl, (natChars A).getLast? = some cl := by
    cases hgl : (natChars A).getLast? with
    | none => exact absurd (List.getLast?_eq_none_iff.mp hgl) (natChars_ne_nil A)
    | some cl => exact ⟨cl, rfl⟩
  have hcld : cl.isDigit = true :=
    natChars_all_digit A cl (List.mem_of_mem_getLast? hcl)
  have hclm : ¬(cl = 'm') := by
    intro h
    subst h
    cases hcld
  have hgl2 : ((⟨ls⟩ : String) ++ natStr A ++ "").data.getLast? = some cl := by
    rw [hd, List.getLast?_append_of_ne_nil ls (natChars_ne_nil A)]
    exact hcl
  simp only [toCode, hgl2]
  rw [if_neg hclm, if_neg hclm, hd]
  rw [hsplitTake, hsplitDrop, List.reverse_reverse, List.reverse_reverse,
    hlookup]

/-- C2 (amended): the translator round-trips every code with a three-digit
mass number: for Z in 1..112, A in 100..300, I in {0,1} and
code = (Z*1000 + A)*10 + I, translating the code to a name and the name
back yields the decimal string of the original code. -/
theorem claim_C2_roundtrip (Z A I : Nat) (hZ1 : 1 ≤ Z) (hZ2 : Z ≤ 112)
    (hA1 : 100 ≤ A) (hA2 : A ≤ 300) (hI : I ≤ 1) :
    (toName ((Z * 1000 + A) * 10 + I)).bind toCode =
      Except.ok (natStr ((Z * 1000 + A) * 10 + I)) := by
  obtain ⟨ls, hlz, ⟨c0, cs0, hrev, hdig⟩, hls⟩ := elemOK_spec Z hZ1 hZ2
  have hcond : I = 0 ∨ I = 1 := by omega
  simp only [toName,
    show ((Z * 1000 + A) * 10 + I) % 10 = I by omega,
    show ((Z * 1000 + A) * 10 + I - I) / 10 = Z * 1000 + A by omega,
    show (Z * 1000 + A) / 1000 = Z by omega,
    show (Z * 1000 + A) % 1000 = A by omega,
    if_pos hcond, hlz, if_neg (by omega : ¬(A = 0)), Except.bind]
  by_cases h1 : I = 1
  · subst h1
    rw [if_pos (rfl : (1 : Nat) = 1)]
    rw [toCode_eval_m ls A Z c0 cs0 hrev hdig hls]
    congr 1
    rw [show (Z * 1000 + A) * 10 + 1 = Z * 10000 + A * 10 + 1 by ring]
    simp only [natStr]
    rw [natChars_split Z A 1 (by omega) hA1 (by omega) (by omega)]
    rfl
  · have h0 : I = 0 := by omega
    subst h0
    rw [if_neg (by omega : ¬((0 : Nat) = 1))]
    rw [toCode_eval_plain ls A Z c0 cs0 hrev hdig hls]
    congr 1
    rw [show (Z * 1000 + A) * 10 + 0 = Z * 10000 + A * 10 + 0 by ring]
    simp only [natStr]
    rw [natChars_split Z A 0 (by omega) hA1 (by omega) (by omega)]
    rfl

/-- C2 (counterexample): code 10010 (Z = 1, A = 1, I = 0, inside the
claimed ranges) does not round-trip: `toName` yields "H1", and the reverse
translation concatenates "1", "1" and "0" into "110", numerically 110, not
10010. -/
theorem claim_C2_counterexample :
    (toName ((1 * 1000 + 1) * 10 + 0)).bind toCode = Except.ok "110" ∧
      Except.ok "110" ≠
        (Except.ok (natStr ((1 * 1000 + 1) * 10 + 0)) : Except TransErr String) ∧
      strVal "110".data = 110 ∧ (1 * 1000 + 1) * 10 + 0 = 10010 := by
  refine ⟨by decide, by decide, by decide, by decide⟩

/-- C2 witness: code 922350 (U235) round-trips to its own decimal
string. -/
theorem claim_C2_witness :
    ((toName ((92 * 1000 + 235) * 10 + 0)).bind toCode =
      Except.ok (natStr ((92 * 1000 + 235) * 10 + 0))) ∧
      natStr ((92 * 1000 + 235) * 10 + 0) = "922350" :=
  ⟨claim_C2_roundtrip 92 235 0 (by decide) (by decide) (by decide) (by decide)
      (by decide), by decide⟩

end ProcessRestart
